import Mathlib

/-!
Verification of the approximate-string-matching core of the `pokemon`
repository (`pokemon.py`, class `Suggest`).

Python strings are modelled as `List Char`; Python `str.lower` becomes
`Char.toLower` mapped over the characters.  The Levenshtein routine
`Suggest.lev_distance` is embedded literally: the matrix is a
`List (List Nat)`, every indexed read or write goes through `Option`
(so a Python `IndexError` is `none`), and the two nested `for` loops are
`foldlM` over `List.range`.  The suggestion routine
`Suggest.suggestions` is embedded with an explicit association list
carrying Python-`dict` semantics (insertion keeps the position of an
existing key, otherwise appends), so duplicate-key collapse is preserved.
-/

namespace Suggest

/-- `str.lower()` on a Python string, modelled characterwise. -/
def lower (s : List Char) : List Char := s.map Char.toLower

/-- The matrix as built before the fill loops (lines 115–125 of
`pokemon.py`): first row `[0, 1, …, len(str1)]`, then for each `row`
in `range(len(str2))` the row `[row+1, 0, …, 0]` with `len(str1)` zeros. -/
def initMatrix (len1 len2 : Nat) : List (List Nat) :=
  List.range (len1 + 1) ::
    (List.range len2).map (fun row => (row + 1) :: List.replicate len1 0)

/-- `matrix[i][j] = v` in Python: fails (`none`) when either index is out
of bounds, otherwise replaces the entry. -/
def matSet (m : List (List Nat)) (i j : Nat) (v : Nat) :
    Option (List (List Nat)) := do
  let row ← m[i]?
  if j < row.length then some (m.set i (row.set j v)) else none

/-- The body of the double fill loop (lines 128–142 of `pokemon.py`) for
one pair of indices `index2 < len(str2)`, `index1 < len(str1)`:
if `str2[index2] == str1[index1]` copy the diagonal, else write
`min([top, left, bottom]) + 1`, into `matrix[index2+1][index1+1]`. -/
def fillCell (s1 s2 : List Char) (m : List (List Nat)) (index2 index1 : Nat) :
    Option (List (List Nat)) := do
  let c2 ← s2[index2]?
  let c1 ← s1[index1]?
  if c2 = c1 then
    let row2 ← m[index2]?
    let d ← row2[index1]?
    matSet m (index2 + 1) (index1 + 1) d
  else
    let row2 ← m[index2]?
    let top ← row2[index1]?
    let left ← row2[index1 + 1]?
    let row3 ← m[index2 + 1]?
    let bottom ← row3[index1]?
    matSet m (index2 + 1) (index1 + 1) (min (min top left) bottom + 1)

/-- The double fill loop: `for index2 in range(len(str2)): for index1 in
range(len(str1)): …`. -/
def fillMatrix (s1 s2 : List Char) (m : List (List Nat)) :
    Option (List (List Nat)) :=
  (List.range s2.length).foldlM
    (fun acc index2 =>
      (List.range s1.length).foldlM
        (fun acc2 index1 => fillCell s1 s2 acc2 index2 index1) acc)
    m

/-- `Suggest.lev_distance(str1, str2)`: lowercase both strings, build and
fill the matrix, return `matrix[-1][-1]`.  `none` models a Python
`IndexError` (which, as proved below, never happens). -/
def lev_distance (str1 str2 : List Char) : Option Nat := do
  let s1 := lower str1
  let s2 := lower str2
  let filled ← fillMatrix s1 s2 (initMatrix s1.length s2.length)
  let lastRow ← filled.getLast?
  lastRow.getLast?

/-- Reference recursive Levenshtein distance, with the branch test and
the `min` association written exactly as in the fill loop (`if str2-char
= str1-char` then diagonal, else `min (min top left) bottom + 1`).
The matrix cell `(i, j)` is proved equal to `levRec` applied to the
reversed length-`j` and length-`i` prefixes, so `matrix[-1][-1]` is
`levRec` on the two reversed lowercased strings. -/
def levRec : List Char → List Char → Nat
  | [], b => b.length
  | c1 :: a, [] => (c1 :: a).length
  | c1 :: a, c2 :: b =>
    if c2 = c1 then
      levRec a b
    else
      min (min (levRec a b) (levRec (c1 :: a) b)) (levRec a (c2 :: b)) + 1
termination_by a b => a.length + b.length
decreasing_by all_goals simp_arith

/-- Value the fill loop is proved to leave in matrix cell `(i, j)`. -/
def cellVal (s1 s2 : List Char) (i j : Nat) : Nat :=
  levRec ((s1.take j).reverse) ((s2.take i).reverse)

/-- Row `i` of the matrix after it has been completely filled. -/
def rowFinal (s1 s2 : List Char) (i : Nat) : List Nat :=
  (List.range (s1.length + 1)).map (cellVal s1 s2 i)

/-- Row `i` of the matrix before the fill loop reaches it. -/
def rowInit (len1 i : Nat) : List Nat := i :: List.replicate len1 0

/-- Row `i` while the inner loop has filled its first `k1 + 1` entries. -/
def rowPartial (s1 s2 : List Char) (i k1 : Nat) : List Nat :=
  (List.range (k1 + 1)).map (cellVal s1 s2 i) ++
    List.replicate (s1.length - k1) 0

/-- The matrix after `k2` complete iterations of the outer fill loop. -/
def mState (s1 s2 : List Char) (k2 : Nat) : List (List Nat) :=
  (List.range (k2 + 1)).map (rowFinal s1 s2) ++
    (List.range' (k2 + 1) (s2.length - k2)).map (rowInit s1.length)

/-- The matrix during outer iteration `k2`, after `k1` inner iterations. -/
def mStateIn (s1 s2 : List Char) (k2 k1 : Nat) : List (List Nat) :=
  (List.range (k2 + 1)).map (rowFinal s1 s2) ++
    rowPartial s1 s2 (k2 + 1) k1 ::
      (List.range' (k2 + 2) (s2.length - (k2 + 1))).map (rowInit s1.length)

/-- Total value of `lev_distance` (the `Option` is proved to always be
`some`); used to state properties of the suggestion engine. -/
def levD (a b : List Char) : Nat := (lev_distance a b).getD 0

/-- `d[k] = v` on a Python `dict` modelled as an association list in
insertion order: an existing key keeps its position and gets the new
value, a new key is appended. -/
def dictInsert (d : List (List Char × Nat)) (k : List Char) (v : Nat) :
    List (List Char × Nat) :=
  if d.any (fun p => p.1 == k) then
    d.map (fun p => if p.1 == k then (p.1, v) else p)
  else
    d ++ [(k, v)]

/-- `d[k]` on the modelled `dict` (`none` models a `KeyError`). -/
def dictGet (d : List (List Char × Nat)) (k : List Char) : Option Nat :=
  (d.find? (fun p => p.1 == k)).map (fun p => p.2)

/-- `d.values()` on the modelled `dict`. -/
def dictValues (d : List (List Char × Nat)) : List Nat :=
  d.map (fun p => p.2)

/-- Python `min` on a list of values.  The empty case never arises in
`suggestions`: the best-match loop that mentions `min(hit_dict.values())`
runs once per entry of `hit_dict`, so the minimum is only taken when
`hit_dict` is non-empty. -/
def pyMin : List Nat → Nat
  | [] => 0
  | v :: vs => vs.foldl min v

/-- `Suggest.suggestions(database, user_input)` (lines 147–175 of
`pokemon.py`), embedded statement by statement.  Note that the direct
pass tests `user_input in word.lower()` with the raw, un-lowercased
`user_input`. -/
def suggestions (database : List (List Char)) (user_input : List Char) :
    Option (List (List Char)) := do
  let start : List (List Char) × List (List Char × Nat) := ([], [])
  let (direct_suggestions, hit_dict) ← database.foldlM
    (fun acc word => do
      let direct :=
        if user_input <:+: lower word then acc.1 ++ [word] else acc.1
      let dist ← lev_distance user_input word
      pure (direct, dictInsert acc.2 word dist))
    start
  if direct_suggestions ≠ [] then
    pure direct_suggestions
  else
    pure (hit_dict.foldl
      (fun best_match p =>
        if dictGet hit_dict p.1 == some (pyMin (dictValues hit_dict)) then
          best_match ++ [p.1]
        else
          best_match)
      [])

/-- The collection built by the direct (substring) pass, as the code
builds it: the raw `user_input` tested against the lowercased word. -/
def directPass (database : List (List Char)) (q : List Char) :
    List (List Char) :=
  database.filter (fun word => decide (q <:+: lower word))

/-- The hit map built by the loop, as a pure fold. -/
def buildDict (q : List Char) (database : List (List Char)) :
    List (List Char × Nat) :=
  database.foldl (fun d word => dictInsert d word (levD q word)) []

/-- The best-match loop as a pure function of the finished hit map. -/
def bestMatch (d : List (List Char × Nat)) : List (List Char) :=
  d.foldl
    (fun best_match p =>
      if dictGet d p.1 == some (pyMin (dictValues d)) then
        best_match ++ [p.1]
      else
        best_match)
    []

end Suggest

namespace Suggest

/-! ## General helper lemmas -/

theorem foldlM_append_opt {α β : Type} (l l' : List α) (f : β → α → Option β)
    (b : β) :
    (l ++ l').foldlM f b = (l.foldlM f b).bind (fun b' => l'.foldlM f b') := by
  induction l generalizing b with
  | nil => simp [List.foldlM]
  | cons x xs ih =>
    simp only [List.cons_append, List.foldlM]
    cases f b x with
    | none => simp
    | some b' => simp [ih]

theorem set_append_len {α : Type} (l l' : List α) (a x : α) :
    (l ++ a :: l').set l.length x = l ++ x :: l' := by
  induction l with
  | nil => simp
  | cons y ys ih => simp [List.set, ih]

/-! ## Properties of the recursive Levenshtein distance -/

theorem levRec_nil_left (b : List Char) : levRec [] b = b.length := by
  simp [levRec]

theorem levRec_nil_right (a : List Char) : levRec a [] = a.length := by
  cases a <;> simp [levRec]

theorem levRec_cons_cons (c1 c2 : Char) (a b : List Char) :
    levRec (c1 :: a) (c2 :: b) =
      if c2 = c1 then levRec a b
      else
        min (min (levRec a b) (levRec (c1 :: a) b)) (levRec a (c2 :: b)) + 1 := by
  rw [levRec]

theorem levRec_self (a : List Char) : levRec a a = 0 := by
  induction a with
  | nil => simp [levRec]
  | cons c a ih => rw [levRec_cons_cons]; simp [ih]

theorem levRec_comm (a b : List Char) : levRec a b = levRec b a := by
  induction a, b using levRec.induct with
  | case1 b => rw [levRec_nil_left, levRec_nil_right]
  | case2 c1 a => rw [levRec_nil_left, levRec_nil_right]
  | case3 a c2 b ih =>
    rw [levRec_cons_cons, levRec_cons_cons]
    simp [ih]
  | case4 c1 a c2 b h ih1 ih2 ih3 =>
    rw [levRec_cons_cons, levRec_cons_cons]
    rw [if_neg h, if_neg (fun hc => h hc.symm)]
    rw [ih1, ih2, ih3]
    omega

theorem levRec_length_bound (a b : List Char) :
    a.length - b.length ≤ levRec a b ∧ b.length - a.length ≤ levRec a b := by
  induction a, b using levRec.induct with
  | case1 b => rw [levRec_nil_left]; simp
  | case2 c1 a => rw [levRec_nil_right]; simp
  | case3 a c2 b ih =>
    rw [levRec_cons_cons, if_pos rfl]
    simp only [List.length_cons]
    omega
  | case4 c1 a c2 b h ih1 ih2 ih3 =>
    rw [levRec_cons_cons, if_neg h]
    simp only [List.length_cons] at ih1 ih2 ih3 ⊢
    omega

/-! ## The fill loop computes `cellVal` in every matrix cell -/

theorem cellVal_left_edge (s1 s2 : List Char) (i : Nat) (hi : i ≤ s2.length) :
    cellVal s1 s2 i 0 = i := by
  simp [cellVal, levRec_nil_left, hi]

theorem cellVal_top_edge (s1 s2 : List Char) (j : Nat) (hj : j ≤ s1.length) :
    cellVal s1 s2 0 j = j := by
  simp [cellVal, levRec_nil_right, hj]

theorem cellVal_succ_succ (s1 s2 : List Char) (k2 k1 : Nat)
    (hk2 : k2 < s2.length) (hk1 : k1 < s1.length) :
    cellVal s1 s2 (k2 + 1) (k1 + 1) =
      if s2[k2] = s1[k1] then cellVal s1 s2 k2 k1
      else
        min (min (cellVal s1 s2 k2 k1) (cellVal s1 s2 k2 (k1 + 1)))
            (cellVal s1 s2 (k2 + 1) k1) + 1 := by
  have t1 : s1.take (k1 + 1) = s1.take k1 ++ [s1[k1]] := by
    rw [List.take_succ, List.getElem?_eq_getElem hk1]
    rfl
  have t2 : s2.take (k2 + 1) = s2.take k2 ++ [s2[k2]] := by
    rw [List.take_succ, List.getElem?_eq_getElem hk2]
    rfl
  simp only [cellVal, t1, t2, List.reverse_append, List.reverse_cons,
    List.reverse_nil, List.nil_append, List.singleton_append]
  rw [levRec_cons_cons]

theorem rowPartial_length (s1 s2 : List Char) (i k1 : Nat)
    (h : k1 ≤ s1.length) :
    (rowPartial s1 s2 i k1).length = s1.length + 1 := by
  simp [rowPartial]
  omega

theorem rowPartial_last (s1 s2 : List Char) (i : Nat) :
    rowPartial s1 s2 i s1.length = rowFinal s1 s2 i := by
  simp [rowPartial, rowFinal]

theorem rowFinal_get (s1 s2 : List Char) (i j : Nat) (hj : j ≤ s1.length) :
    (rowFinal s1 s2 i)[j]? = some (cellVal s1 s2 i j) := by
  rw [rowFinal, List.getElem?_map, List.getElem?_range (by omega)]
  rfl

theorem rowPartial_get (s1 s2 : List Char) (i k1 j : Nat) (hj : j ≤ k1) :
    (rowPartial s1 s2 i k1)[j]? = some (cellVal s1 s2 i j) := by
  rw [rowPartial, List.getElem?_append_left
    (by simp; omega), List.getElem?_map, List.getElem?_range (by omega)]
  rfl

theorem rowPartial_set (s1 s2 : List Char) (i k1 : Nat) (h : k1 < s1.length) :
    (rowPartial s1 s2 i k1).set (k1 + 1) (cellVal s1 s2 i (k1 + 1)) =
      rowPartial s1 s2 i (k1 + 1) := by
  have hrep : List.replicate (s1.length - k1) (0 : Nat) =
      0 :: List.replicate (s1.length - (k1 + 1)) 0 := by
    have : s1.length - k1 = (s1.length - (k1 + 1)) + 1 := by omega
    rw [this, List.replicate_succ]
  have key := set_append_len ((List.range (k1 + 1)).map (cellVal s1 s2 i))
    (List.replicate (s1.length - (k1 + 1)) 0) 0 (cellVal s1 s2 i (k1 + 1))
  rw [List.length_map, List.length_range] at key
  rw [rowPartial, hrep, key, rowPartial,
    show List.range (k1 + 1 + 1) = List.range (k1 + 1) ++ [k1 + 1] from
      List.range_succ (k1 + 1),
    List.map_append, List.append_assoc]
  simp

theorem get_append_len {α : Type} (l l' : List α) (a : α) :
    (l ++ a :: l')[l.length]? = some a := by
  rw [List.getElem?_append_right (le_refl _)]
  simp

theorem mStateIn_get_k2 (s1 s2 : List Char) (k2 k1 : Nat) :
    (mStateIn s1 s2 k2 k1)[k2]? = some (rowFinal s1 s2 k2) := by
  rw [mStateIn, List.getElem?_append_left
    (by simp only [List.length_map, List.length_range]; omega),
    List.getElem?_map, List.getElem?_range (by omega)]
  rfl

theorem mStateIn_get_k2succ (s1 s2 : List Char) (k2 k1 : Nat) :
    (mStateIn s1 s2 k2 k1)[k2 + 1]? = some (rowPartial s1 s2 (k2 + 1) k1) := by
  have key := get_append_len ((List.range (k2 + 1)).map (rowFinal s1 s2))
    ((List.range' (k2 + 2) (s2.length - (k2 + 1))).map (rowInit s1.length))
    (rowPartial s1 s2 (k2 + 1) k1)
  rw [List.length_map, List.length_range] at key
  rw [mStateIn]
  exact key

theorem matSet_mStateIn (s1 s2 : List Char) (k2 k1 v : Nat)
    (h : k1 < s1.length) :
    matSet (mStateIn s1 s2 k2 k1) (k2 + 1) (k1 + 1) v =
      some ((List.range (k2 + 1)).map (rowFinal s1 s2) ++
        ((rowPartial s1 s2 (k2 + 1) k1).set (k1 + 1) v) ::
          (List.range' (k2 + 2) (s2.length - (k2 + 1))).map
            (rowInit s1.length)) := by
  have hlen : (rowPartial s1 s2 (k2 + 1) k1).length = s1.length + 1 :=
    rowPartial_length s1 s2 (k2 + 1) k1 (by omega)
  have key := set_append_len ((List.range (k2 + 1)).map (rowFinal s1 s2))
    ((List.range' (k2 + 2) (s2.length - (k2 + 1))).map (rowInit s1.length))
    (rowPartial s1 s2 (k2 + 1) k1)
    ((rowPartial s1 s2 (k2 + 1) k1).set (k1 + 1) v)
  rw [List.length_map, List.length_range] at key
  rw [matSet, mStateIn_get_k2succ]
  simp only [Option.bind_eq_bind, Option.some_bind]
  rw [if_pos (by rw [hlen]; omega)]
  rw [mStateIn, key]

theorem fillCell_step (s1 s2 : List Char) (k2 k1 : Nat)
    (hk2 : k2 < s2.length) (hk1 : k1 < s1.length) :
    fillCell s1 s2 (mStateIn s1 s2 k2 k1) k2 k1 =
      some (mStateIn s1 s2 k2 (k1 + 1)) := by
  have h2 : s2[k2]? = some s2[k2] := List.getElem?_eq_getElem hk2
  have h1 : s1[k1]? = some s1[k1] := List.getElem?_eq_getElem hk1
  have htop : (rowFinal s1 s2 k2)[k1]? = some (cellVal s1 s2 k2 k1) :=
    rowFinal_get s1 s2 k2 k1 (by omega)
  have hleft : (rowFinal s1 s2 k2)[k1 + 1]? =
      some (cellVal s1 s2 k2 (k1 + 1)) :=
    rowFinal_get s1 s2 k2 (k1 + 1) (by omega)
  have hbottom : (rowPartial s1 s2 (k2 + 1) k1)[k1]? =
      some (cellVal s1 s2 (k2 + 1) k1) :=
    rowPartial_get s1 s2 (k2 + 1) k1 k1 (le_refl k1)
  have hrec := cellVal_succ_succ s1 s2 k2 k1 hk2 hk1
  have hrow : (rowPartial s1 s2 (k2 + 1) k1).set (k1 + 1)
      (cellVal s1 s2 (k2 + 1) (k1 + 1)) = rowPartial s1 s2 (k2 + 1) (k1 + 1) :=
    rowPartial_set s1 s2 (k2 + 1) k1 hk1
  rw [fillCell, h1, h2]
  simp only [Option.bind_eq_bind, Option.some_bind]
  by_cases hc : s2[k2] = s1[k1]
  · rw [if_pos hc, mStateIn_get_k2]
    simp only [Option.some_bind]
    rw [htop, Option.some_bind, matSet_mStateIn s1 s2 k2 k1 _ hk1]
    rw [show cellVal s1 s2 k2 k1 = cellVal s1 s2 (k2 + 1) (k1 + 1) by
      rw [hrec, if_pos hc]]
    rw [hrow, ← mStateIn]
  · rw [if_neg hc, mStateIn_get_k2]
    simp only [Option.some_bind]
    rw [htop, Option.some_bind, hleft, Option.some_bind,
      mStateIn_get_k2succ, Option.some_bind, hbottom, Option.some_bind,
      matSet_mStateIn s1 s2 k2 k1 _ hk1]
    rw [show min (min (cellVal s1 s2 k2 k1) (cellVal s1 s2 k2 (k1 + 1)))
          (cellVal s1 s2 (k2 + 1) k1) + 1 = cellVal s1 s2 (k2 + 1) (k1 + 1) by
      rw [hrec, if_neg hc]]
    rw [hrow, ← mStateIn]

theorem rowPartial_zero (s1 s2 : List Char) (i : Nat) (hi : i ≤ s2.length) :
    rowPartial s1 s2 i 0 = rowInit s1.length i := by
  have h0 : List.range 1 = [0] := rfl
  rw [rowPartial, rowInit, h0]
  simp [cellVal_left_edge s1 s2 i hi]

theorem mStateIn_zero (s1 s2 : List Char) (k2 : Nat) (hk2 : k2 < s2.length) :
    mStateIn s1 s2 k2 0 = mState s1 s2 k2 := by
  rw [mStateIn, mState, rowPartial_zero s1 s2 (k2 + 1) (by omega)]
  rw [show s2.length - k2 = (s2.length - (k2 + 1)) + 1 by omega,
    List.range'_succ, List.map_cons]

theorem mStateIn_full (s1 s2 : List Char) (k2 : Nat) :
    mStateIn s1 s2 k2 s1.length = mState s1 s2 (k2 + 1) := by
  rw [mStateIn, mState, rowPartial_last]
  rw [show List.range (k2 + 1 + 1) = List.range (k2 + 1) ++ [k2 + 1] from
    List.range_succ (k2 + 1), List.map_append, List.append_assoc]
  simp

theorem rowFinal_zero (s1 s2 : List Char) :
    rowFinal s1 s2 0 = List.range (s1.length + 1) := by
  rw [rowFinal]
  have : ∀ j ∈ List.range (s1.length + 1), cellVal s1 s2 0 j = id j := by
    intro j hj
    rw [List.mem_range] at hj
    rw [cellVal_top_edge s1 s2 j (by omega)]
    rfl
  rw [List.map_congr_left this, List.map_id]

theorem initMatrix_eq (s1 s2 : List Char) :
    initMatrix s1.length s2.length = mState s1 s2 0 := by
  have h0 : List.range 1 = [0] := rfl
  rw [initMatrix, mState, h0, List.map_cons, List.map_nil, Nat.sub_zero,
    List.range'_eq_map_range, List.map_map, rowFinal_zero,
    List.singleton_append]
  congr 1
  apply List.map_congr_left
  intro row _
  simp [rowInit, Nat.add_comm]

theorem inner_loop (s1 s2 : List Char) (k2 : Nat) (hk2 : k2 < s2.length)
    (k1 : Nat) (hk1 : k1 ≤ s1.length) :
    (List.range k1).foldlM
      (fun acc2 index1 => fillCell s1 s2 acc2 k2 index1)
      (mState s1 s2 k2) = some (mStateIn s1 s2 k2 k1) := by
  induction k1 with
  | zero =>
    rw [mStateIn_zero s1 s2 k2 hk2]
    simp [List.foldlM]
  | succ k1 ih =>
    rw [List.range_succ k1, foldlM_append_opt, ih (by omega)]
    simp only [Option.some_bind, List.foldlM]
    rw [fillCell_step s1 s2 k2 k1 hk2 (by omega)]
    simp

theorem outer_loop (s1 s2 : List Char) (k2 : Nat) (hk2 : k2 ≤ s2.length) :
    (List.range k2).foldlM
      (fun acc index2 =>
        (List.range s1.length).foldlM
          (fun acc2 index1 => fillCell s1 s2 acc2 index2 index1) acc)
      (initMatrix s1.length s2.length) = some (mState s1 s2 k2) := by
  induction k2 with
  | zero =>
    rw [← initMatrix_eq]
    simp [List.foldlM]
  | succ k2 ih =>
    rw [List.range_succ k2, foldlM_append_opt, ih (by omega)]
    simp only [Option.some_bind, List.foldlM]
    rw [inner_loop s1 s2 k2 (by omega) s1.length (le_refl _), mStateIn_full]
    simp

theorem fillMatrix_eq (s1 s2 : List Char) :
    fillMatrix s1 s2 (initMatrix s1.length s2.length) =
      some (mState s1 s2 s2.length) := by
  rw [fillMatrix]
  exact outer_loop s1 s2 s2.length (le_refl _)

theorem rowFinal_getLast (s1 s2 : List Char) (i : Nat) :
    (rowFinal s1 s2 i).getLast? = some (cellVal s1 s2 i s1.length) := by
  rw [rowFinal, show List.range (s1.length + 1) =
      List.range s1.length ++ [s1.length] from List.range_succ s1.length,
    List.map_append]
  simp [List.getLast?_concat]

theorem mState_getLast (s1 s2 : List Char) :
    (mState s1 s2 s2.length).getLast? = some (rowFinal s1 s2 s2.length) := by
  rw [mState, Nat.sub_self,
    show List.range (s2.length + 1) =
      List.range s2.length ++ [s2.length] from List.range_succ s2.length,
    List.map_append]
  simp [List.getLast?_concat]

/-- Main correctness theorem for the matrix fill: `lev_distance` never
hits an out-of-bounds access and returns the recursive Levenshtein
distance of the reversed lowercased inputs. -/
theorem lev_distance_eq (a b : List Char) :
    lev_distance a b =
      some (levRec (lower a).reverse (lower b).reverse) := by
  rw [lev_distance]
  simp only [Option.bind_eq_bind]
  rw [fillMatrix_eq, Option.some_bind, mState_getLast, Option.some_bind,
    rowFinal_getLast, cellVal, List.take_length, List.take_length]

theorem lev_distance_eq_levD (a b : List Char) :
    lev_distance a b = some (levD a b) := by
  rw [levD, lev_distance_eq]
  rfl

theorem levD_eq (a b : List Char) :
    levD a b = levRec (lower a).reverse (lower b).reverse := by
  rw [levD, lev_distance_eq]
  rfl

/-! ## The suggestion loop as pure functions -/

theorem suggest_loop_eq (q : List Char) (db : List (List Char)) :
    ∀ (ds : List (List Char)) (d : List (List Char × Nat)),
      db.foldlM
        (fun acc word => do
          let direct := if q <:+: lower word then acc.1 ++ [word] else acc.1
          let dist ← lev_distance q word
          pure (direct, dictInsert acc.2 word dist))
        (ds, d) =
      some (ds ++ directPass db q,
        db.foldl (fun d' w => dictInsert d' w (levD q w)) d) := by
  induction db with
  | nil =>
    intro ds d
    simp [List.foldlM, directPass]
  | cons w ws ih =>
    intro ds d
    simp only [List.foldlM, List.foldl_cons]
    rw [lev_distance_eq_levD]
    simp only [Option.bind_eq_bind, Option.pure_def, Option.some_bind]
    simp only [Option.bind_eq_bind, Option.pure_def] at ih
    rw [ih]
    by_cases hw : q <:+: lower w
    · rw [if_pos hw]
      simp [directPass, List.filter_cons, hw, List.append_assoc]
    · rw [if_neg hw]
      simp [directPass, List.filter_cons, hw]

theorem suggestions_eq (db : List (List Char)) (q : List Char) :
    suggestions db q =
      some (if directPass db q = [] then bestMatch (buildDict q db)
            else directPass db q) := by
  rw [suggestions]
  rw [suggest_loop_eq q db [] []]
  rw [← buildDict]
  simp only [Option.bind_eq_bind, Option.some_bind, List.nil_append]
  by_cases h : directPass db q = []
  · rw [if_neg (by simp [h]), if_pos h]
    rw [bestMatch]
    rfl
  · rw [if_pos h, if_neg h]
    rfl

theorem foldl_append_filter {α β : Type} (P : α → Bool) (g : α → β)
    (l : List α) (acc : List β) :
    l.foldl (fun bm p => if P p then bm ++ [g p] else bm) acc =
      acc ++ (l.filter P).map g := by
  induction l generalizing acc with
  | nil => simp
  | cons p ps ih =>
    simp only [List.foldl_cons, List.filter_cons]
    by_cases h : P p = true
    · rw [if_pos h, ih, h]
      simp [List.append_assoc]
    · rw [if_neg h, ih]
      simp only [Bool.not_eq_true] at h
      rw [h]
      simp

theorem bestMatch_eq_filter (d : List (List Char × Nat)) :
    bestMatch d =
      (d.filter
        (fun p => dictGet d p.1 == some (pyMin (dictValues d)))).map
        (fun p => p.1) := by
  rw [bestMatch]
  simpa using foldl_append_filter
    (fun p => dictGet d p.1 == some (pyMin (dictValues d)))
    (fun p => p.1) d []

theorem bestMatch_sublist (d : List (List Char × Nat)) :
    List.Sublist (bestMatch d) (d.map (fun p => p.1)) := by
  rw [bestMatch_eq_filter]
  exact (List.filter_sublist d).map (fun p => p.1)

theorem dictInsert_keys (d : List (List Char × Nat)) (k : List Char)
    (v : Nat) :
    (dictInsert d k v).map (fun p => p.1) = d.map (fun p => p.1) ∨
      (dictInsert d k v).map (fun p => p.1) = d.map (fun p => p.1) ++ [k] := by
  rw [dictInsert]
  by_cases h : d.any (fun p => p.1 == k) = true
  · left
    rw [if_pos h, List.map_map]
    apply List.map_congr_left
    intro p _
    simp only [Function.comp_apply]
    split
    · rfl
    · rfl
  · right
    rw [if_neg h]
    simp

theorem foldl_dictInsert_keys_sublist (q : List Char) :
    ∀ (db : List (List Char)) (d0 : List (List Char × Nat))
      (seen : List (List Char)),
      List.Sublist (d0.map (fun p => p.1)) seen →
      List.Sublist
        ((db.foldl (fun d' w => dictInsert d' w (levD q w)) d0).map
          (fun p => p.1))
        (seen ++ db) := by
  intro db
  induction db with
  | nil =>
    intro d0 seen h
    simpa using h
  | cons w ws ih =>
    intro d0 seen h
    simp only [List.foldl_cons]
    have hnext : List.Sublist
        ((dictInsert d0 w (levD q w)).map (fun p => p.1)) (seen ++ [w]) := by
      rcases dictInsert_keys d0 w (levD q w) with h1 | h1
      · rw [h1]
        exact h.trans (List.sublist_append_left seen [w])
      · rw [h1]
        exact h.append (List.Sublist.refl [w])
    have hmain := ih (dictInsert d0 w (levD q w)) (seen ++ [w]) hnext
    rw [List.append_assoc, List.singleton_append] at hmain
    exact hmain

theorem buildDict_keys_sublist (q : List Char) (db : List (List Char)) :
    List.Sublist ((buildDict q db).map (fun p => p.1)) db := by
  have h := foldl_dictInsert_keys_sublist q db [] [] (by simp)
  simpa [buildDict] using h

theorem foldl_dictInsert_fresh (q : List Char) :
    ∀ (db : List (List Char)) (d0 : List (List Char × Nat)),
      db.Nodup → (∀ w ∈ db, ∀ p ∈ d0, p.1 ≠ w) →
      db.foldl (fun d' w => dictInsert d' w (levD q w)) d0 =
        d0 ++ db.map (fun w => (w, levD q w)) := by
  intro db
  induction db with
  | nil =>
    intro d0 _ _
    simp
  | cons w ws ih =>
    intro d0 hnd hdisj
    have hw_not : w ∉ ws := (List.nodup_cons.mp hnd).1
    have hnd' : ws.Nodup := (List.nodup_cons.mp hnd).2
    have hany : ¬(d0.any (fun p => p.1 == w) = true) := by
      rw [List.any_eq_true]
      rintro ⟨p, hp, hbeq⟩
      exact hdisj w (List.mem_cons_self w ws) p hp (by simpa using hbeq)
    simp only [List.foldl_cons, List.map_cons]
    rw [dictInsert, if_neg hany]
    rw [ih (d0 ++ [(w, levD q w)]) hnd' (by
      intro w' hw' p hp
      rcases List.mem_append.mp hp with hp0 | hp1
      · exact hdisj w' (List.mem_cons_of_mem w hw') p hp0
      · have hpw : p.1 = w := by
          have hp' : p = (w, levD q w) := by simpa using hp1
          rw [hp']
        rw [hpw]
        intro hc
        exact hw_not (by rw [hc]; exact hw'))]
    rw [List.append_assoc, List.singleton_append]

theorem buildDict_nodup (q : List Char) (db : List (List Char))
    (hnd : db.Nodup) :
    buildDict q db = db.map (fun w => (w, levD q w)) := by
  have h := foldl_dictInsert_fresh q db [] hnd
    (by intro w _ p hp; cases hp)
  simpa [buildDict] using h

theorem dictGet_map_pair (q : List Char) (db : List (List Char))
    (w : List Char) (hw : w ∈ db) :
    dictGet (db.map (fun x => (x, levD q x))) w = some (levD q w) := by
  induction db with
  | nil => cases hw
  | cons x xs ih =>
    by_cases h : x = w
    · subst h
      simp [dictGet, List.find?_cons]
    · have hw' : w ∈ xs := by
        rcases List.mem_cons.mp hw with h1 | h1
        · exact absurd h1.symm h
        · exact h1
      have hbeq : (((x, levD q x)).1 == w) = false := by simpa using h
      rw [List.map_cons, dictGet, List.find?_cons, hbeq, ← dictGet]
      exact ih hw'

theorem dictValues_map_pair (q : List Char) (db : List (List Char)) :
    dictValues (db.map (fun w => (w, levD q w))) = db.map (levD q) := by
  rw [dictValues, List.map_map]
  rfl

theorem foldl_min_le (xs : List Nat) (a : Nat) : xs.foldl min a ≤ a := by
  induction xs generalizing a with
  | nil => simp
  | cons x xs ih =>
    simp only [List.foldl_cons]
    exact le_trans (ih (min a x)) (min_le_left a x)

theorem foldl_min_le_mem :
    ∀ (xs : List Nat) (a v : Nat), v ∈ xs → xs.foldl min a ≤ v
  | [], _, _, hv => absurd hv (List.not_mem_nil _)
  | x :: xs, a, v, hv => by
    simp only [List.foldl_cons]
    rcases List.mem_cons.mp hv with rfl | h
    · exact le_trans (foldl_min_le xs (min a v)) (min_le_right a v)
    · exact foldl_min_le_mem xs (min a x) v h

theorem pyMin_le (l : List Nat) (v : Nat) (hv : v ∈ l) : pyMin l ≤ v := by
  cases l with
  | nil => cases hv
  | cons x xs =>
    rw [pyMin]
    rcases List.mem_cons.mp hv with rfl | h
    · exact foldl_min_le xs v
    · exact foldl_min_le_mem xs x v h

theorem directPass_nil_query (db : List (List Char)) :
    directPass db [] = db := by
  rw [directPass]
  apply List.filter_eq_self.mpr
  intro w _
  simp [ List.nil_infix]

theorem bestMatch_map_pair (q : List Char) (db : List (List Char)) :
    bestMatch (db.map (fun w => (w, levD q w))) =
      db.filter (fun w => levD q w == pyMin (db.map (levD q))) := by
  rw [bestMatch_eq_filter, List.filter_map, List.map_map]
  have hid : ((fun p : List Char × Nat => p.1) ∘ fun w => (w, levD q w)) =
      fun w : List Char => w := by
    funext w
    rfl
  rw [hid, List.map_id']
  apply List.filter_congr
  intro w hw
  simp [dictGet_map_pair q db w hw, dictValues_map_pair]

/-! ## Claim theorems -/

/-- Claim C1: the spec states the direct pass matches the lowercased
query against the lowercased candidates, so an uppercase query matches
the same candidates as its lowercased form.  The code tests the raw
query (`user_input in word.lower()`), contradicting its own docstring
"Suggestion process is case-insensitive": for candidates
`["Pikachu", "Raichu"]` the query `"CHU"` finds no direct match and
falls through to the distance pass (returning `["Raichu"]`), while the
lowercased query `"chu"` direct-matches both candidates. -/
theorem c1_direct_pass_raw_query :
    suggestions ["Pikachu".data, "Raichu".data] ("CHU".data) =
        some ["Raichu".data] ∧
      suggestions ["Pikachu".data, "Raichu".data] ("chu".data) =
        some ["Pikachu".data, "Raichu".data] := by
  constructor
  · decide
  · decide

/-- Claim C2 (counterexample): the claim says a candidate appearing twice
in the input at minimal distance appears twice in the output, but the hit
map is a dict keyed by candidate string, so duplicates collapse: for
candidates `["ab", "ab"]` and query `"z"` (no substring match, both
copies at the minimal distance) the output contains `"ab"` once. -/
theorem c2_duplicates_collapse :
    suggestions [['a', 'b'], ['a', 'b']] ['z'] = some [['a', 'b']] ∧
      some [['a', 'b']] ≠ some [['a', 'b'], ['a', 'b']] := by
  constructor
  · decide
  · decide

/-- Claim C2 (amended): for a non-empty, duplicate-free candidate list in
which no candidate passes the substring pass, `suggestions` returns every
candidate whose distance from the query equals the minimum distance over
all candidates, in original candidate order (and that value is indeed the
minimum); duplicate occurrences of the same spelling are collapsed by the
dict-keyed hit map, so each matching spelling appears once. -/
theorem c2_distance_pass_min (db : List (List Char)) (q : List Char)
    (hnd : db.Nodup) (_hne : db ≠ []) (hdir : directPass db q = []) :
    suggestions db q =
        some (db.filter (fun w => levD q w == pyMin (db.map (levD q)))) ∧
      ∀ w ∈ db, pyMin (db.map (levD q)) ≤ levD q w := by
  constructor
  · rw [suggestions_eq, if_pos hdir, buildDict_nodup q db hnd,
      bestMatch_map_pair]
  · intro w hw
    exact pyMin_le _ _ (List.mem_map_of_mem _ hw)

theorem c2_distance_pass_min_witness :
    suggestions [['a', 'b'], ['c', 'd']] ['z'] =
        some (([['a', 'b'], ['c', 'd']] : List (List Char)).filter
          (fun w => levD ['z'] w ==
            pyMin (([['a', 'b'], ['c', 'd']] :
              List (List Char)).map (levD ['z'])))) ∧
      ∀ w ∈ ([['a', 'b'], ['c', 'd']] : List (List Char)),
        pyMin (([['a', 'b'], ['c', 'd']] :
          List (List Char)).map (levD ['z'])) ≤ levD ['z'] w :=
  c2_distance_pass_min [['a', 'b'], ['c', 'd']] ['z']
    (by decide) (by decide) (by decide)

/-- Claim C3: for every candidate list and query, the output of
`suggestions` is a subsequence of the input candidate list: it contains
only strings occurring in the list and preserves their relative order,
in both the substring pass and the distance pass. -/
theorem c3_output_sublist (db : List (List Char)) (q : List Char)
    (out : List (List Char))
    (h : suggestions db q = some out) : List.Sublist out db := by
  rw [suggestions_eq] at h
  by_cases hd : directPass db q = []
  · rw [if_pos hd] at h
    have hout : out = bestMatch (buildDict q db) := by
      injection h with h'
      exact h'.symm
    rw [hout]
    exact (bestMatch_sublist (buildDict q db)).trans
      (buildDict_keys_sublist q db)
  · rw [if_neg hd] at h
    have hout : out = directPass db q := by
      injection h with h'
      exact h'.symm
    rw [hout, directPass]
    exact List.filter_sublist db

theorem c3_output_sublist_witness :
    List.Sublist [['a']] [['a']] :=
  c3_output_sublist [['a']] ['a'] [['a']] (by decide)

/-- Claim C4: whenever the direct (substring) pass collects at least one
candidate, `suggestions` returns exactly that collection, never re-ranked
by distance; and on an empty query with a non-empty candidate list it
returns all candidates in order as direct matches. -/
theorem c4_direct_wins (db : List (List Char)) (q : List Char)
    (h1 : directPass db q ≠ []) (h2 : db ≠ []) :
    suggestions db q = some (directPass db q) ∧
      suggestions db [] = some db := by
  constructor
  · rw [suggestions_eq, if_neg h1]
  · rw [suggestions_eq, directPass_nil_query, if_neg h2]

theorem c4_direct_wins_witness :
    suggestions [['a']] ['a'] = some (directPass [['a']] ['a']) ∧
      suggestions [['a']] [] = some [['a']] :=
  c4_direct_wins [['a']] ['a'] (by decide) (by decide)

/-- Claim C5: `suggestions` applied to an empty candidate list returns
the empty sequence for every query, and is total (never signals an
error, i.e. never returns `none`) on all inputs, including empty strings
and empty candidate lists. -/
theorem c5_empty_candidates_total (q : List Char) :
    suggestions [] q = some [] ∧
      ∀ db : List (List Char), (suggestions db q).isSome = true := by
  constructor
  · rw [suggestions_eq]
    rfl
  · intro db
    rw [suggestions_eq]
    rfl

/-- Claim C6: `lev_distance` is symmetric: for all strings `a` and `b`,
`distance(a, b) = distance(b, a)`. -/
theorem c6_distance_symm (a b : List Char) :
    lev_distance a b = lev_distance b a := by
  rw [lev_distance_eq, lev_distance_eq, levRec_comm]

/-- Claim C7: `distance(a, a) = 0` for every string, and the comparison
is case-insensitive: two strings equal up to letter case have distance 0,
in particular `distance("Pikachu", "pikachu") = 0`. -/
theorem c7_case_insensitive_zero (a b : List Char) (h : lower a = lower b) :
    lev_distance a a = some 0 ∧ lev_distance a b = some 0 := by
  constructor
  · rw [lev_distance_eq, levRec_self]
  · rw [lev_distance_eq, h, levRec_self]

theorem c7_case_insensitive_zero_witness :
    lev_distance ("Pikachu".data) ("Pikachu".data) = some 0 ∧
      lev_distance ("Pikachu".data) ("pikachu".data) = some 0 :=
  c7_case_insensitive_zero ("Pikachu".data) ("pikachu".data) (by decide)

/-- Claim C8: the distance from the empty string to `s` (and from `s` to
the empty string) is the length of `s`; empty strings are valid inputs
with no error condition. -/
theorem c8_empty_distance (s : List Char) :
    lev_distance [] s = some s.length ∧
      lev_distance s [] = some s.length := by
  constructor
  · rw [lev_distance_eq]
    simp [lower, levRec_nil_left]
  · rw [lev_distance_eq]
    simp [lower, levRec_nil_right]

theorem lower_length (s : List Char) : (lower s).length = s.length := by
  simp [lower]

/-- Claim C9: the distance between `a` and `b` is at least the absolute
difference of their lengths, and (being a natural number) is always
non-negative. -/
theorem c9_length_lower_bound (a b : List Char) :
    ∃ n : Nat, lev_distance a b = some n ∧
      (((a.length : Int) - (b.length : Int)).natAbs ≤ n ∧ 0 ≤ n) := by
  refine ⟨levRec (lower a).reverse (lower b).reverse,
    lev_distance_eq a b, ?_, Nat.zero_le _⟩
  have h := levRec_length_bound (lower a).reverse (lower b).reverse
  simp only [List.length_reverse, lower_length] at h
  omega

/-- Claim C10: every row of the matrix built by `lev_distance(a, b)` has
`len(a) + 1` entries, and every matrix access of the fill loop is in
bounds: `lev_distance` always returns an integer (`some`), never an
indexing error (`none`). -/
theorem c10_matrix_access_safe (a b : List Char) :
    (∀ row ∈ initMatrix (lower a).length (lower b).length,
        row.length = a.length + 1) ∧
      (lev_distance a b).isSome = true := by
  constructor
  · intro row hrow
    rcases List.mem_cons.mp hrow with h1 | h1
    · rw [h1]
      simp [lower]
    · rcases List.mem_map.mp h1 with ⟨r, _, hr⟩
      rw [← hr]
      simp [lower]
  · rw [lev_distance_eq]
    rfl

end Suggest
